import Mathlib

/-!
Verification of the seller-website-financing-detector core
(class WebsiteAnalyzer: fetchWithAxios, analyzeContent, analyzeWebsite).

Text is modelled as List Char.  The HTTP layer (axios) and the HTML text
extraction (cheerio) are external libraries: a fetch outcome is modelled as
an Except value whose ok payload is the extracted visible body text and
whose error payload is the error message produced by the network layer.
-/

/-- Convert a string literal to the List Char representation used throughout. -/
def kw (s : String) : List Char := s.toList

/-- A character in the range lo..hi of code points (inclusive). -/
def inCodeRange (c : Char) (lo hi : Nat) : Bool :=
  decide (lo ≤ c.toNat) && decide (c.toNat ≤ hi)

/-- Model of JavaScript String.prototype.toLowerCase, faithful on ASCII
(the keyword taxonomy and the characters the claims exercise are ASCII);
uppercase letters are code points 65..90, shifted down by 32. -/
def jsToLower (c : Char) : Char :=
  if 65 ≤ c.toNat ∧ c.toNat ≤ 90 then Char.ofNat (c.toNat + 32) else c

/-- The unicode space-variant character class of the source regex, by code
point: U+00A0, U+1680, U+180E, U+2000..U+200B, U+202F, U+205F, U+3000. -/
def isSpaceVariant (c : Char) : Bool :=
  c.toNat == 0xA0 || c.toNat == 0x1680 || c.toNat == 0x180E ||
    inCodeRange c 0x2000 0x200B || c.toNat == 0x202F || c.toNat == 0x205F ||
    c.toNat == 0x3000

/-- The space-variant replacement acting on one character. -/
def spaceRepl (c : Char) : Char := if isSpaceVariant c then ' ' else c

/-- The dash replacement acting on one character
(en dash U+2013, em dash U+2014 become "-"). -/
def dashRepl (c : Char) : Char :=
  if c.toNat == 0x2013 || c.toNat == 0x2014 then '-' else c

/-- Characters with an NFKD compatibility decomposition to a plain space:
U+00A0, U+1680, U+2000..U+200A, U+202F, U+205F, U+3000. -/
def nfkdDecomposes (c : Char) : Bool :=
  c.toNat == 0xA0 || c.toNat == 0x1680 || inCodeRange c 0x2000 0x200A ||
    c.toNat == 0x202F || c.toNat == 0x205F || c.toNat == 0x3000

/-- Model of JS String.prototype.normalize("NFKD") (an engine built-in),
restricted to the compatibility whitespace code points that interact with the
rest of this normalization pipeline; identity on every other character. -/
def nfkdChar (c : Char) : List Char := if nfkdDecomposes c then [' '] else [c]

/-- The JavaScript regex whitespace character class (also the character set
removed by String.prototype.trim): TAB LF VT FF CR SP NBSP U+1680
U+2000..U+200A U+2028 U+2029 U+202F U+205F U+3000 U+FEFF. -/
def isJsSpace (c : Char) : Bool :=
  c.toNat == 0x9 || c.toNat == 0xA || c.toNat == 0xB || c.toNat == 0xC ||
    c.toNat == 0xD || c.toNat == 0x20 || c.toNat == 0xA0 || c.toNat == 0x1680 ||
    inCodeRange c 0x2000 0x200A || c.toNat == 0x2028 || c.toNat == 0x2029 ||
    c.toNat == 0x202F || c.toNat == 0x205F || c.toNat == 0x3000 ||
    c.toNat == 0xFEFF

/-- replace(/\s+/g, " "): the Bool flag records whether the scanner is inside
a whitespace run whose single replacement space was already emitted. -/
def collapseGo : Bool → List Char → List Char
  | _, [] => []
  | prevSpace, c :: cs =>
    if isJsSpace c then
      if prevSpace then collapseGo true cs else ' ' :: collapseGo true cs
    else c :: collapseGo false cs

/-- replace(/\s+/g, " ") over a whole text. -/
def collapseSpaces (l : List Char) : List Char := collapseGo false l

/-- Leading-whitespace removal (half of String.prototype.trim). -/
def trimL (l : List Char) : List Char := l.dropWhile isJsSpace

/-- Trailing-whitespace removal (the other half of String.prototype.trim). -/
def trimR (l : List Char) : List Char := (l.reverse.dropWhile isJsSpace).reverse

/-- String.prototype.trim. -/
def jsTrim (l : List Char) : List Char := trimR (trimL l)

/-- The normalization chain of fetchWithAxios, in source order:
.normalize("NFKD").toLowerCase().replace(spaces," ").replace(/[–—]/g,"-")
.replace(/\s+/g," ").trim() -/
def normalizeText (t : List Char) : List Char :=
  jsTrim (collapseSpaces ((((t.flatMap nfkdChar).map jsToLower).map spaceRepl).map dashRepl))

/-- The character-local part of the normalization chain (everything before
the whitespace collapse). -/
def charPipe (t : List Char) : List Char :=
  (((t.flatMap nfkdChar).map jsToLower).map spaceRepl).map dashRepl

/-- A character that every stage of the character-local pipeline leaves
unchanged. -/
def goodChar (d : Char) : Prop :=
  nfkdChar d = [d] ∧ jsToLower d = d ∧ spaceRepl d = d ∧ dashRepl d = d

/-- Texts in which every whitespace character is a plain space and no two
whitespace characters are adjacent (the shape produced by the whitespace
collapse). -/
def wellSpaced (l : List Char) : Prop :=
  (∀ c ∈ l, isJsSpace c = true → c = ' ') ∧
    List.Chain' (fun a b => ¬(isJsSpace a = true ∧ isJsSpace b = true)) l

/-- Does w occur at the very start of t? (anchored literal match) -/
def leadsWith : List Char → List Char → Bool
  | [], _ => true
  | _ :: _, [] => false
  | a :: as, b :: bs => a == b && leadsWith as bs

/-- Fueled scan counting leftmost non-overlapping occurrences of the literal
pattern w, as String.prototype.match with a global escaped-literal regex does.
On a match the scan resumes after the matched span. -/
def countOccGo (w : List Char) : Nat → List Char → Nat
  | _, [] => 0
  | 0, _ => 0
  | fuel + 1, c :: cs =>
    if leadsWith w (c :: cs) then
      1 + countOccGo w fuel (List.drop (w.length - 1) cs)
    else countOccGo w fuel cs

/-- content.match(new RegExp(escapedLiteral, "g")).length (0 when null).
A global empty pattern matches once per position plus once at the end. -/
def countOcc (w t : List Char) : Nat :=
  if w = [] then t.length + 1 else countOccGo w t.length t

/-- this.financingKeywords from the WebsiteAnalyzer constructor. -/
def financingKeywords : List (List Char) :=
  ([ "financing", "finance", "apply now", "credit", "loan",
     "payment plan", "installment", "monthly payment",
     "deferred payment", "credit score", "no credit check",
     "bad credit", "credit approval", "instant credit",
     "application", "pre-qualify", "get approved",
     "buy now pay later", "bnpl", "0% apr", "interest free",
     "special financing", "finance options", "payment options",
     "affirm", "klarna", "afterpay", "sezzle", "paypal credit",
     "finance available",
     "quote", "instant quote", "get a quote", "request a quote",
     "free quote", "online quote", "quick quote", "quote now",
     "get pricing", "see pricing", "get an instant quote",
     "request estimate", "get estimate" ] : List String).map String.toList

/-- this.highConfidenceKeywords from the WebsiteAnalyzer constructor. -/
def highConfidenceKeywords : List (List Char) :=
  ([ "apply now", "financing", "credit approval",
     "payment plan", "buy now pay later",
     "monthly payment", "affirm", "klarna",
     "afterpay", "finance options", "get approved",
     "instant quote", "get a quote", "request a quote",
     "quote now", "get an instant quote" ] : List String).map String.toList

/-- One entry of the matchedKeywords array pushed by analyzeContent. -/
structure MatchRecord where
  keyword : List Char
  count : Nat
  isHighConfidence : Bool
deriving DecidableEq, Repr

/-- The record returned by analyzeContent. -/
structure ContentAnalysis where
  isFinancingDetected : Bool
  confidence : ℚ
  matchedKeywords : List MatchRecord
deriving DecidableEq, Repr

/-- The record returned by analyzeWebsite on success. -/
structure AnalysisReport where
  classification : String
  confidence : ℚ
  matchedKeywords : List MatchRecord
  contentLength : Nat
  javascriptRendered : Bool
  analysisMethod : String
  fullText : List Char
deriving DecidableEq, Repr

/-- The body of the financingKeywords.forEach callback: the accumulator holds
the matchedKeywords array, the running confidenceScore and the running
highConfidenceMatches counter; lc is the content as the case-insensitive
regex sees it. -/
def scanStep (lc : List Char) (acc : List MatchRecord × ℚ × Nat)
    (keyword : List Char) : List MatchRecord × ℚ × Nat :=
  let n := countOcc keyword lc
  if n = 0 then acc
  else
    let high := highConfidenceKeywords.contains keyword
    (acc.1 ++ [⟨keyword, n, high⟩],
     acc.2.1 + (if high then (0.4 : ℚ) else (0.15 : ℚ)) * n,
     acc.2.2 + (if high then n else 0))

/-- The forEach loop of analyzeContent over the fixed taxonomy. -/
def scanKeywords (content : List Char) : List MatchRecord × ℚ × Nat :=
  financingKeywords.foldl (scanStep (content.map jsToLower)) ([], 0, 0)

/-- Number(x.toFixed(3)): round half up at the third decimal. -/
def toFixed3 (x : ℚ) : ℚ := ((round (1000 * x) : ℤ) : ℚ) / 1000

/-- analyzeContent from the source: scan, cap the score at 1.0, round to three
decimals and apply the threshold-gated classification rule. -/
def analyzeContent (content : List Char) : ContentAnalysis :=
  let scan := scanKeywords content
  { isFinancingDetected :=
      decide (0 < scan.1.length) && (decide (0 < scan.2.2) || decide (2 ≤ scan.1.length)),
    confidence := toFixed3 (min scan.2.1 1),
    matchedKeywords := scan.1 }

/-- fetchWithAxios: the argument models the outcome of the axios GET plus
cheerio body-text extraction (ok = extracted visible body text, error = the
network error message).  On success the text is normalized; on failure the
error is wrapped as "Network error: ..." and re-thrown. -/
def fetchWithAxios (response : Except String String) : Except String (List Char) :=
  match response with
  | .ok bodyText => .ok (normalizeText bodyText.toList)
  | .error e => .error ("Network error: " ++ e)

/-- analyzeWebsite: fetch, analyze, and shape the result record; any error
thrown below is wrapped as "Failed to analyze website: ..." and re-thrown. -/
def analyzeWebsite (response : Except String String) : Except String AnalysisReport :=
  match fetchWithAxios response with
  | .error e => .error ("Failed to analyze website: " ++ e)
  | .ok content =>
    let analysis := analyzeContent content
    .ok { classification := if analysis.isFinancingDetected then "Proactive" else "Non User",
          confidence := analysis.confidence,
          matchedKeywords := analysis.matchedKeywords,
          contentLength := content.length,
          javascriptRendered := false,
          analysisMethod := "axios",
          fullText := content }

/-! ## Characterization of the keyword scan -/

/-- The MatchRecord that the scan emits for one keyword (none when the
keyword does not occur). -/
def recordFor (lc keyword : List Char) : Option MatchRecord :=
  if countOcc keyword lc = 0 then none
  else some ⟨keyword, countOcc keyword lc, highConfidenceKeywords.contains keyword⟩

/-- Score contribution of one keyword. -/
def keywordTerm (lc keyword : List Char) : ℚ :=
  (if highConfidenceKeywords.contains keyword then (0.4 : ℚ) else (0.15 : ℚ)) *
    (countOcc keyword lc : ℚ)

/-- highConfidenceMatches contribution of one keyword. -/
def highTerm (lc keyword : List Char) : Nat :=
  if highConfidenceKeywords.contains keyword then countOcc keyword lc else 0

theorem scan_foldl (lc : List Char) (L : List (List Char)) (m : List MatchRecord)
    (s : ℚ) (h : Nat) :
    L.foldl (scanStep lc) (m, s, h) =
      (m ++ L.filterMap (recordFor lc),
       s + (L.map (keywordTerm lc)).sum,
       h + (L.map (highTerm lc)).sum) := by
  induction L generalizing m s h with
  | nil => simp
  | cons k L ih =>
    simp only [List.foldl_cons, List.filterMap_cons, List.map_cons, List.sum_cons]
    by_cases hn : countOcc k lc = 0
    · simp [scanStep, hn, recordFor, keywordTerm, highTerm, ih]
    · simp [scanStep, hn, recordFor, keywordTerm, highTerm, ih, add_assoc]

theorem scanKeywords_eq (c : List Char) :
    scanKeywords c =
      (financingKeywords.filterMap (recordFor (c.map jsToLower)),
       (financingKeywords.map (keywordTerm (c.map jsToLower))).sum,
       (financingKeywords.map (highTerm (c.map jsToLower))).sum) := by
  rw [scanKeywords, scan_foldl]
  simp

theorem sum_over_matched (lc : List Char) (L : List (List Char)) :
    ((L.filterMap (recordFor lc)).map
        (fun r => (if r.isHighConfidence then (0.4 : ℚ) else 0.15) * (r.count : ℚ))).sum
      = (L.map (keywordTerm lc)).sum := by
  induction L with
  | nil => rfl
  | cons k L ih =>
    simp only [List.filterMap_cons, List.map_cons, List.sum_cons]
    by_cases hn : countOcc k lc = 0
    · simp only [recordFor, hn, reduceIte, keywordTerm]
      rw [ih]
      simp [hn]
    · simp only [recordFor, hn, reduceIte, keywordTerm]
      simp only [List.map_cons, List.sum_cons, ih]

/-! ## Occurrence counting: fuel irrelevance and characteristic equations -/

theorem countOccGo_congr (w : List Char) :
    ∀ (f₁ : Nat) (t : List Char) (f₂ : Nat), t.length ≤ f₁ → t.length ≤ f₂ →
      countOccGo w f₁ t = countOccGo w f₂ t := by
  intro f₁
  induction f₁ with
  | zero =>
    intro t f₂ h₁ _
    have ht : t = [] := List.eq_nil_of_length_eq_zero (Nat.le_zero.mp h₁)
    subst ht
    cases f₂ <;> rfl
  | succ f₁ ih =>
    intro t f₂ h₁ h₂
    cases t with
    | nil => cases f₂ <;> rfl
    | cons c cs =>
      cases f₂ with
      | zero => exact absurd h₂ (by simp)
      | succ f₂ =>
        simp only [countOccGo]
        have hcs₁ : cs.length ≤ f₁ := by simpa using Nat.succ_le_succ_iff.mp h₁
        have hcs₂ : cs.length ≤ f₂ := by simpa using Nat.succ_le_succ_iff.mp h₂
        by_cases hl : leadsWith w (c :: cs) = true
        · rw [if_pos hl, if_pos hl]
          have hd : (List.drop (w.length - 1) cs).length ≤ cs.length := by
            simp [List.length_drop]
          rw [ih (List.drop (w.length - 1) cs) f₂ (le_trans hd hcs₁) (le_trans hd hcs₂)]
        · rw [if_neg hl, if_neg hl]
          exact ih cs f₂ hcs₁ hcs₂

theorem countOcc_nil (w : List Char) : countOcc w [] = if w = [] then 1 else 0 := by
  by_cases hw : w = [] <;> simp [countOcc, hw, countOccGo]

theorem countOcc_cons (w : List Char) (hw : w ≠ []) (c : Char) (cs : List Char) :
    countOcc w (c :: cs) =
      if leadsWith w (c :: cs) then 1 + countOcc w (List.drop (w.length - 1) cs)
      else countOcc w cs := by
  simp only [countOcc, hw, reduceIte]
  have hlen : (c :: cs).length = cs.length + 1 := rfl
  rw [hlen]
  simp only [countOccGo]
  by_cases hl : leadsWith w (c :: cs) = true
  · rw [if_pos hl, if_pos hl]
    congr 1
    exact countOccGo_congr w cs.length (List.drop (w.length - 1) cs)
      (List.drop (w.length - 1) cs).length (by simp [List.length_drop]) le_rfl
  · rw [if_neg hl, if_neg hl]

theorem leadsWith_append {w t : List Char} (s : List Char) (h : leadsWith w t = true) :
    leadsWith w (t ++ s) = true := by
  induction w generalizing t with
  | nil => rfl
  | cons a as ih =>
    cases t with
    | nil => exact absurd h (by simp [leadsWith])
    | cons b bs =>
      simp only [leadsWith, Bool.and_eq_true, beq_iff_eq] at h
      simp only [List.cons_append, leadsWith, Bool.and_eq_true, beq_iff_eq]
      exact ⟨h.1, ih h.2⟩

theorem length_le_of_leadsWith {w t : List Char} (h : leadsWith w t = true) :
    w.length ≤ t.length := by
  induction w generalizing t with
  | nil => simp
  | cons a as ih =>
    cases t with
    | nil => exact absurd h (by simp [leadsWith])
    | cons b bs =>
      simp only [leadsWith, Bool.and_eq_true] at h
      simpa using ih h.2

theorem leadsWith_of_append {w t s : List Char} (h : leadsWith w (t ++ s) = true)
    (hlen : w.length ≤ t.length) : leadsWith w t = true := by
  induction w generalizing t with
  | nil => rfl
  | cons a as ih =>
    cases t with
    | nil => simp at hlen
    | cons b bs =>
      simp only [List.cons_append, leadsWith, Bool.and_eq_true, beq_iff_eq] at h
      simp only [leadsWith, Bool.and_eq_true, beq_iff_eq]
      exact ⟨h.1, ih h.2 (by simpa using hlen)⟩

theorem countOcc_eq_zero_of_short {w : List Char} (hw : w ≠ []) :
    ∀ {t : List Char}, t.length < w.length → countOcc w t = 0 := by
  intro t
  induction t with
  | nil => intro _; simp [countOcc_nil, hw]
  | cons c cs ih =>
    intro h
    rw [countOcc_cons w hw]
    have hl : ¬ leadsWith w (c :: cs) = true := fun hc =>
      absurd (length_le_of_leadsWith hc) (by omega)
    simp only [hl, reduceIte]
    exact ih (by simp at h ⊢; omega)

theorem countOcc_le_append (w t s : List Char) :
    countOcc w t ≤ countOcc w (t ++ s) := by
  by_cases hw : w = []
  · subst hw; simp [countOcc]
  · suffices H : ∀ (n : Nat) (t : List Char), t.length ≤ n →
        countOcc w t ≤ countOcc w (t ++ s) from H t.length t le_rfl
    intro n
    induction n with
    | zero =>
      intro t ht
      have : t = [] := List.eq_nil_of_length_eq_zero (Nat.le_zero.mp ht)
      subst this
      simp [countOcc_nil, hw]
    | succ n ih =>
      intro t ht
      cases t with
      | nil => simp [countOcc_nil, hw]
      | cons c cs =>
        rw [countOcc_cons w hw, show (c :: cs) ++ s = c :: (cs ++ s) from rfl,
          countOcc_cons w hw]
        have hcs : cs.length ≤ n := by simpa using Nat.succ_le_succ_iff.mp ht
        by_cases hl : leadsWith w (c :: cs) = true
        · have hl2 : leadsWith w (c :: (cs ++ s)) = true := by
            have := leadsWith_append (t := c :: cs) s hl
            simpa using this
          rw [if_pos hl, if_pos hl2]
          have hwlen : w.length ≤ cs.length + 1 := by
            simpa using length_le_of_leadsWith hl
          have hdrop : List.drop (w.length - 1) (cs ++ s)
              = List.drop (w.length - 1) cs ++ s := by
            rw [List.drop_append_eq_append_drop]
            have hz : w.length - 1 - cs.length = 0 := by omega
            rw [hz, List.drop_zero]
          rw [hdrop]
          have hdlen : (List.drop (w.length - 1) cs).length ≤ n := by
            simp only [List.length_drop]; omega
          exact Nat.add_le_add_left (ih _ hdlen) 1
        · by_cases hl2 : leadsWith w (c :: (cs ++ s)) = true
          · rw [if_neg hl, if_pos hl2]
            have hlong : cs.length + 1 < w.length := by
              by_contra hle
              exact hl (leadsWith_of_append (t := c :: cs) (s := s) (by simpa using hl2)
                (by simp; omega))
            have hzero : countOcc w cs = 0 :=
              countOcc_eq_zero_of_short hw (by omega)
            omega
          · rw [if_neg hl, if_neg hl2]
            exact ih cs hcs

/-! ## Detection rule, score bounds -/

theorem high_sum_pos_iff (lc : List Char) (L : List (List Char)) :
    0 < (L.map (highTerm lc)).sum ↔
      ∃ r ∈ L.filterMap (recordFor lc), r.isHighConfidence = true := by
  induction L with
  | nil => simp
  | cons k L ih =>
    simp only [List.map_cons, List.sum_cons, List.filterMap_cons]
    by_cases hn : countOcc k lc = 0
    · simp only [highTerm, hn, recordFor, reduceIte, ite_self, Nat.zero_add]
      simpa using ih
    · by_cases hh : highConfidenceKeywords.contains k = true
      · simp only [highTerm, hh, recordFor, hn, reduceIte]
        constructor
        · intro _
          exact ⟨⟨k, countOcc k lc, true⟩, List.mem_cons_self _ _, rfl⟩
        · intro _
          omega
      · simp only [highTerm, hh, recordFor, hn, reduceIte, Bool.false_eq_true, zero_add]
        rw [ih]
        constructor
        · rintro ⟨r, hr, hrh⟩
          exact ⟨r, List.mem_cons_of_mem _ hr, hrh⟩
        · rintro ⟨r, hr, hrh⟩
          rcases List.mem_cons.mp hr with h | h
          · subst h
            simp at hrh
          · exact ⟨r, h, hrh⟩

theorem keywordTerm_nonneg (lc k : List Char) : 0 ≤ keywordTerm lc k := by
  rw [keywordTerm]
  by_cases h : highConfidenceKeywords.contains k = true <;>
    simp [h] <;> positivity

theorem rawScore_nonneg (c : List Char) : 0 ≤ (scanKeywords c).2.1 := by
  rw [scanKeywords_eq]
  exact List.sum_nonneg (by
    intro x hx
    rcases List.mem_map.mp hx with ⟨k, _, rfl⟩
    exact keywordTerm_nonneg _ k)

theorem toFixed3_of_int (x : ℚ) (n : ℤ) (h : 1000 * x = (n : ℚ)) :
    toFixed3 x = (n : ℚ) / 1000 := by
  rw [toFixed3, h, round_intCast]

theorem toFixed3_bounds {x : ℚ} (h0 : 0 ≤ x) (h1 : x ≤ 1) :
    0 ≤ toFixed3 x ∧ toFixed3 x ≤ 1 := by
  rw [toFixed3]
  have hlow : (0 : ℤ) ≤ round (1000 * x) := by
    rw [round_eq]
    have : (0 : ℚ) ≤ 1000 * x + 1 / 2 := by linarith
    exact Int.floor_nonneg.mpr this
  have hhigh : round (1000 * x) ≤ 1000 := by
    rw [round_eq]
    have hlt : 1000 * x + 1 / 2 < ((1001 : ℤ) : ℚ) := by push_cast; linarith
    have := Int.floor_lt.mpr hlt
    omega
  constructor
  · positivity
  · rw [div_le_one (by norm_num)]
    exact_mod_cast hhigh

theorem analyzeContent_matchedKeywords (c : List Char) :
    (analyzeContent c).matchedKeywords = (scanKeywords c).1 := rfl

theorem analyzeContent_confidence (c : List Char) :
    (analyzeContent c).confidence = toFixed3 (min (scanKeywords c).2.1 1) := rfl

theorem score_eq_matched_sum (c : List Char) :
    (scanKeywords c).2.1 =
      (((scanKeywords c).1).map
        (fun r => (if r.isHighConfidence then (0.4 : ℚ) else 0.15) * (r.count : ℚ))).sum := by
  rw [scanKeywords_eq]
  exact (sum_over_matched _ _).symm

theorem detected_iff_aux (c : List Char) :
    (analyzeContent c).isFinancingDetected = true ↔
      ((∃ r ∈ (analyzeContent c).matchedKeywords, r.isHighConfidence = true) ∨
        2 ≤ (analyzeContent c).matchedKeywords.length) := by
  show (decide (0 < (scanKeywords c).1.length) &&
      (decide (0 < (scanKeywords c).2.2) || decide (2 ≤ (scanKeywords c).1.length))) = true ↔ _
  rw [analyzeContent_matchedKeywords]
  simp only [Bool.and_eq_true, Bool.or_eq_true, decide_eq_true_eq]
  constructor
  · rintro ⟨hpos, hh | hlen⟩
    · left
      have := (high_sum_pos_iff (c.map jsToLower) financingKeywords).mp (by
        have h22 : (scanKeywords c).2.2 =
            (financingKeywords.map (highTerm (c.map jsToLower))).sum := by
          rw [scanKeywords_eq]
        rwa [h22] at hh)
      rcases this with ⟨r, hr, hrh⟩
      refine ⟨r, ?_, hrh⟩
      rw [scanKeywords_eq]
      exact hr
    · right; exact hlen
  · rintro (⟨r, hr, hrh⟩ | hlen)
    · constructor
      · exact List.length_pos.mpr (List.ne_nil_of_mem hr)
      · left
        have h22 : (scanKeywords c).2.2 =
            (financingKeywords.map (highTerm (c.map jsToLower))).sum := by
          rw [scanKeywords_eq]
        rw [h22]
        refine (high_sum_pos_iff (c.map jsToLower) financingKeywords).mpr ⟨r, ?_, hrh⟩
        have h1 : (scanKeywords c).1 =
            financingKeywords.filterMap (recordFor (c.map jsToLower)) := by
          rw [scanKeywords_eq]
        rwa [h1] at hr
    · exact ⟨by omega, Or.inr hlen⟩

/-! ## Claim theorems -/

/-- C1 counterexample: a fetch failure (timeout) is not recovered as empty
page content with a NonUser classification; analyzeWebsite re-throws it to
the caller as an error, so no analysis result is produced. -/
theorem claim1_counterexample :
    analyzeWebsite (Except.error "timeout of 10000ms exceeded") =
      Except.error "Failed to analyze website: Network error: timeout of 10000ms exceeded" := rfl

/-- C1 (amended): for every analyze call whose page fetch fails, the failure
is wrapped by fetchWithAxios as "Network error: ..." and re-thrown by
analyzeWebsite as "Failed to analyze website: ..."; no AnalysisReport (and in
particular no NonUser classification over empty text) is produced. -/
theorem claim1_fetch_failure_rethrown (e : String) :
    analyzeWebsite (Except.error e) =
      Except.error ("Failed to analyze website: Network error: " ++ e) := rfl

/-- C2: the classifier flags a page as Proactive (isFinancingDetected = true,
which analyzeWebsite maps to classification "Proactive", otherwise "Non User")
if and only if at least one high-confidence keyword match exists, or the
number of distinct matched keywords is at least 2. -/
theorem claim2_threshold_rule (content : List Char) :
    (analyzeContent content).isFinancingDetected = true ↔
      ((∃ r ∈ (analyzeContent content).matchedKeywords, r.isHighConfidence = true) ∨
        2 ≤ (analyzeContent content).matchedKeywords.length) :=
  detected_iff_aux content

/-- C3: the running confidence score accumulated by the scan equals the sum,
over the emitted MatchRecords, of weight × occurrenceCount, with weight 0.4
for a high-confidence keyword and 0.15 for a standard keyword. -/
theorem claim3_weighted_score (content : List Char) :
    (scanKeywords content).2.1 =
      (((analyzeContent content).matchedKeywords).map
        (fun r => (if r.isHighConfidence then (0.4 : ℚ) else 0.15) * (r.count : ℚ))).sum :=
  score_eq_matched_sum content

/-- C4: the confidence value returned by the scorer always lies in [0, 1]. -/
theorem claim4_confidence_in_unit_interval (content : List Char) :
    0 ≤ (analyzeContent content).confidence ∧ (analyzeContent content).confidence ≤ 1 :=
  toFixed3_bounds (le_min (rawScore_nonneg content) zero_le_one) (min_le_right _ _)

/-- C5 counterexample: a page containing only the standard keyword "loan" has
a non-empty matchedKeywords sequence yet is classified "Non User", so
non-empty matches do not imply a Proactive classification. -/
theorem claim5_counterexample :
    (analyzeContent (kw "loan")).matchedKeywords ≠ [] ∧
      (analyzeContent (kw "loan")).isFinancingDetected = false ∧
      (analyzeWebsite (Except.ok "loan")).map AnalysisReport.classification =
        Except.ok "Non User" :=
  ⟨by decide, by decide, rfl⟩

/-- C5 (amended): if the classification is Proactive then matchedKeywords is
non-empty; the converse fails (a single standard-keyword match leaves the
classification NonUser with a non-empty match list). -/
theorem claim5_proactive_implies_matches (content : List Char)
    (h : (analyzeContent content).isFinancingDetected = true) :
    (analyzeContent content).matchedKeywords ≠ [] := by
  rcases (detected_iff_aux content).mp h with ⟨r, hr, _⟩ | hlen
  · exact List.ne_nil_of_mem hr
  · intro hnil
    rw [hnil] at hlen
    simp at hlen

/-- C5 witness: the amended implication applied at a concrete Proactive page. -/
theorem claim5_witness :
    (analyzeContent (kw "financing")).isFinancingDetected = true ∧
      (analyzeContent (kw "financing")).matchedKeywords ≠ [] :=
  ⟨by decide, claim5_proactive_implies_matches _ (by decide)⟩

/-- C10: the content scorer is deterministic: two runs over the same content
yield the same flag, the same confidence and the same matchedKeywords in the
same order. -/
theorem claim10_deterministic (content : List Char) (r₁ r₂ : ContentAnalysis)
    (h₁ : analyzeContent content = r₁) (h₂ : analyzeContent content = r₂) :
    r₁.isFinancingDetected = r₂.isFinancingDetected ∧ r₁.confidence = r₂.confidence ∧
      r₁.matchedKeywords = r₂.matchedKeywords := by
  subst h₁; subst h₂
  exact ⟨rfl, rfl, rfl⟩

/-- C10 witness: determinism applied at a concrete content string. -/
theorem claim10_witness :
    (analyzeContent (kw "financing")).isFinancingDetected =
        (analyzeContent (kw "financing")).isFinancingDetected ∧
      (analyzeContent (kw "financing")).confidence =
        (analyzeContent (kw "financing")).confidence ∧
      (analyzeContent (kw "financing")).matchedKeywords =
        (analyzeContent (kw "financing")).matchedKeywords :=
  claim10_deterministic (kw "financing") _ _ rfl rfl

/-- C6 counterexample: on a page containing "quote now" and "get pricing" the
scorer does not emit two MatchRecords with confidence 0.55: the standalone
keyword "quote" also matches inside "quote now" (deliberately boundary-free
substring matching), so there are three records. -/
theorem claim6_counterexample :
    ¬((analyzeContent (kw "quote now get pricing")).matchedKeywords.length = 2 ∧
      (analyzeContent (kw "quote now get pricing")).confidence = 0.55) := by
  rintro ⟨h2, _⟩
  have h3 : (analyzeContent (kw "quote now get pricing")).matchedKeywords.length = 3 := by
    decide
  omega

/-- C6 (amended): a page containing "quote now" and "get pricing" yields three
MatchRecords — "quote" (standard, matched inside "quote now"), "quote now"
(high-confidence) and "get pricing" (standard) — confidence
0.15 + 0.4 + 0.15 = 0.7, and classification Proactive. -/
theorem claim6_scenario_d :
    (analyzeContent (kw "quote now get pricing")).matchedKeywords =
        [⟨kw "quote", 1, false⟩, ⟨kw "quote now", 1, true⟩, ⟨kw "get pricing", 1, false⟩] ∧
      (analyzeContent (kw "quote now get pricing")).confidence = 0.7 ∧
      (analyzeWebsite (Except.ok "quote now get pricing")).map AnalysisReport.classification =
        Except.ok "Proactive" := by
  refine ⟨by decide, ?_, rfl⟩
  have hm : (scanKeywords (kw "quote now get pricing")).1 =
      [⟨kw "quote", 1, false⟩, ⟨kw "quote now", 1, true⟩, ⟨kw "get pricing", 1, false⟩] := by
    decide
  have hs : (scanKeywords (kw "quote now get pricing")).2.1 = 0.7 := by
    rw [score_eq_matched_sum, hm]
    simp only [List.map_cons, List.map_nil, List.sum_cons, List.sum_nil]
    norm_num
  rw [analyzeContent_confidence, hs]
  have hmin : min (0.7 : ℚ) 1 = 0.7 := by norm_num
  rw [hmin, toFixed3_of_int _ 700 (by norm_num)]
  norm_num

/-- C8 counterexample: inserting an occurrence of the keyword "quote" into the
middle of "financing" destroys the "financing" match, and the raw
(pre-clamping) score strictly decreases from 0.4 to 0.15. -/
theorem claim8_counterexample :
    kw "finanquotecing" =
        (kw "financing").take 5 ++ kw "quote" ++ (kw "financing").drop 5 ∧
      kw "quote" ∈ financingKeywords ∧
      (scanKeywords (kw "finanquotecing")).2.1 < (scanKeywords (kw "financing")).2.1 := by
  refine ⟨by decide, by decide, ?_⟩
  have h1 : (scanKeywords (kw "finanquotecing")).1 = [⟨kw "quote", 1, false⟩] := by decide
  have h2 : (scanKeywords (kw "financing")).1 = [⟨kw "financing", 1, true⟩] := by decide
  rw [score_eq_matched_sum, score_eq_matched_sum, h1, h2]
  simp only [List.map_cons, List.map_nil, List.sum_cons, List.sum_nil]
  norm_num

/-- C8 (amended): appending an occurrence of any taxonomy keyword at the end
of the text never decreases the pre-clamping confidence score (insertion at an
interior position can decrease it, as the counterexample shows). -/
theorem claim8_append_monotone (t k : List Char) (_hk : k ∈ financingKeywords) :
    (scanKeywords t).2.1 ≤ (scanKeywords (t ++ k)).2.1 := by
  rw [scanKeywords_eq, scanKeywords_eq]
  refine List.sum_le_sum ?_
  intro w hw
  rw [keywordTerm, keywordTerm, List.map_append]
  have hc : countOcc w (t.map jsToLower) ≤
      countOcc w (t.map jsToLower ++ k.map jsToLower) := countOcc_le_append _ _ _
  have hcast : (countOcc w (t.map jsToLower) : ℚ) ≤
      (countOcc w (t.map jsToLower ++ k.map jsToLower) : ℚ) := by exact_mod_cast hc
  split
  · exact mul_le_mul_of_nonneg_left hcast (by norm_num)
  · exact mul_le_mul_of_nonneg_left hcast (by norm_num)

/-- C8 witness: append monotonicity at a concrete text and keyword. -/
theorem claim8_witness :
    kw "financing" ∈ financingKeywords ∧
      (scanKeywords (kw "credit")).2.1 ≤
        (scanKeywords (kw "credit" ++ kw "financing")).2.1 :=
  ⟨by decide, claim8_append_monotone _ _ (by decide)⟩

/-! ## Normalizer: character-level fixed points -/

theorem toNat_ofNat_valid (n : Nat) (h : n < 55296) : (Char.ofNat n).toNat = n := by
  have hv : n.isValidChar := Or.inl h
  rw [Char.ofNat, dif_pos hv]
  simp [Char.ofNatAux, Char.toNat, UInt32.ofNat', UInt32.toNat]

theorem toNat_jsToLower (c : Char) :
    (jsToLower c).toNat =
      if 65 ≤ c.toNat ∧ c.toNat ≤ 90 then c.toNat + 32 else c.toNat := by
  rw [jsToLower]
  by_cases h : 65 ≤ c.toNat ∧ c.toNat ≤ 90
  · rw [if_pos h, if_pos h, toNat_ofNat_valid _ (by omega)]
  · rw [if_neg h, if_neg h]

theorem jsToLower_eq_self {c : Char} (h : ¬(65 ≤ c.toNat ∧ c.toNat ≤ 90)) :
    jsToLower c = c := by
  rw [jsToLower, if_neg h]

theorem nfkdChar_eq_self {c : Char} (h : nfkdDecomposes c = false) :
    nfkdChar c = [c] := by
  simp [nfkdChar, h]

theorem spaceRepl_eq_self {c : Char} (h : isSpaceVariant c = false) :
    spaceRepl c = c := by
  simp [spaceRepl, h]

theorem dashRepl_eq_self {c : Char}
    (h : (c.toNat == 0x2013 || c.toNat == 0x2014) = false) : dashRepl c = c := by
  simp only [dashRepl, h, Bool.false_eq_true, if_false]

theorem decomposes_implies_variant (c : Char) (h : nfkdDecomposes c = true) :
    isSpaceVariant c = true := by
  simp only [nfkdDecomposes, isSpaceVariant, inCodeRange, Bool.or_eq_true,
    beq_iff_eq, Bool.and_eq_true, decide_eq_true_eq] at h ⊢
  omega

theorem goodChar_space : goodChar ' ' :=
  ⟨by decide, by decide, by decide, by decide⟩

theorem goodChar_dash : goodChar '-' :=
  ⟨by decide, by decide, by decide, by decide⟩

theorem goodChar_phi (e : Char) : goodChar (dashRepl (spaceRepl (jsToLower e))) := by
  have ha : ¬(65 ≤ (jsToLower e).toNat ∧ (jsToLower e).toNat ≤ 90) := by
    rw [toNat_jsToLower]
    by_cases h : 65 ≤ e.toNat ∧ e.toNat ≤ 90
    · rw [if_pos h]; omega
    · rw [if_neg h]; exact h
  cases hv : isSpaceVariant (jsToLower e) with
  | true =>
    have hb : spaceRepl (jsToLower e) = ' ' := by simp [spaceRepl, hv]
    rw [hb, show dashRepl ' ' = ' ' from by decide]
    exact goodChar_space
  | false =>
    rw [spaceRepl_eq_self hv]
    cases hd : ((jsToLower e).toNat == 0x2013 || (jsToLower e).toNat == 0x2014) with
    | true =>
      have hdd : dashRepl (jsToLower e) = '-' := by simp [dashRepl, hd]
      rw [hdd]
      exact goodChar_dash
    | false =>
      rw [dashRepl_eq_self hd]
      refine ⟨?_, jsToLower_eq_self ha, spaceRepl_eq_self hv, dashRepl_eq_self hd⟩
      cases hnd : nfkdDecomposes (jsToLower e) with
      | false => exact nfkdChar_eq_self hnd
      | true =>
        rw [decomposes_implies_variant _ hnd] at hv
        exact absurd hv (by simp)

theorem charPipe_flatMap (t : List Char) :
    charPipe t = t.flatMap
      (fun c => (nfkdChar c).map (fun e => dashRepl (spaceRepl (jsToLower e)))) := by
  simp only [charPipe, List.map_map, List.map_flatMap]
  rfl

theorem mem_charPipe_good {t : List Char} {d : Char} (hd : d ∈ charPipe t) :
    goodChar d := by
  rw [charPipe_flatMap] at hd
  rcases List.mem_flatMap.mp hd with ⟨c, _, hc⟩
  rcases List.mem_map.mp hc with ⟨e, _, rfl⟩
  exact goodChar_phi e

theorem charPipe_fixed : ∀ {l : List Char}, (∀ d ∈ l, goodChar d) → charPipe l = l := by
  intro l
  induction l with
  | nil => intro _; rfl
  | cons d l ih =>
    intro h
    have hd := h d (List.mem_cons_self _ _)
    rw [charPipe_flatMap, List.flatMap_cons]
    have hdl : (nfkdChar d).map (fun e => dashRepl (spaceRepl (jsToLower e))) = [d] := by
      rw [hd.1]
      simp [hd.2.1, hd.2.2.1, hd.2.2.2]
    have htl : l.flatMap
        (fun c => (nfkdChar c).map (fun e => dashRepl (spaceRepl (jsToLower e)))) = l := by
      rw [← charPipe_flatMap]
      exact ih (fun x hx => h x (List.mem_cons_of_mem _ hx))
    rw [hdl, htl]
    rfl

/-! ## Normalizer: whitespace collapse and trim -/

theorem collapseGo_true_cons (c : Char) (cs : List Char) :
    collapseGo true (c :: cs) =
      if isJsSpace c = true then collapseGo true cs else c :: collapseGo false cs := by
  by_cases hc : isJsSpace c = true
  · simp [collapseGo, hc]
  · simp [collapseGo, hc]

theorem collapseGo_false_cons (c : Char) (cs : List Char) :
    collapseGo false (c :: cs) =
      if isJsSpace c = true then ' ' :: collapseGo true cs
      else c :: collapseGo false cs := by
  by_cases hc : isJsSpace c = true
  · simp [collapseGo, hc]
  · simp [collapseGo, hc]

theorem head_collapseGo_true : ∀ {cs : List Char} {d : Char},
    (collapseGo true cs).head? = some d → isJsSpace d = false := by
  intro cs
  induction cs with
  | nil => intro d h; simp [collapseGo] at h
  | cons c cs ih =>
    intro d h
    rw [collapseGo_true_cons] at h
    by_cases hc : isJsSpace c = true
    · rw [if_pos hc] at h
      exact ih h
    · rw [if_neg hc] at h
      simp only [List.head?_cons, Option.some.injEq] at h
      subst h
      simpa using hc

theorem mem_collapseGo {d : Char} :
    ∀ (l : List Char) (b : Bool), d ∈ collapseGo b l → d = ' ' ∨ d ∈ l := by
  intro l
  induction l with
  | nil => intro b h; simp [collapseGo] at h
  | cons c cs ih =>
    intro b h
    by_cases hc : isJsSpace c = true
    · have hmem : d = ' ' ∨ d ∈ collapseGo true cs := by
        cases b with
        | true =>
          rw [collapseGo_true_cons, if_pos hc] at h
          exact Or.inr h
        | false =>
          rw [collapseGo_false_cons, if_pos hc] at h
          rcases List.mem_cons.mp h with h' | h'
          · exact Or.inl h'
          · exact Or.inr h'
      rcases hmem with h' | h'
      · exact Or.inl h'
      · rcases ih true h' with h'' | h''
        · exact Or.inl h''
        · exact Or.inr (List.mem_cons_of_mem _ h'')
    · have hmem : d ∈ c :: collapseGo false cs := by
        cases b with
        | true => rwa [collapseGo_true_cons, if_neg hc] at h
        | false => rwa [collapseGo_false_cons, if_neg hc] at h
      rcases List.mem_cons.mp hmem with h' | h'
      · exact Or.inr (h' ▸ List.mem_cons_self _ _)
      · rcases ih false h' with h'' | h''
        · exact Or.inl h''
        · exact Or.inr (List.mem_cons_of_mem _ h'')

theorem wellSpaced_collapseGo : ∀ (l : List Char) (b : Bool),
    wellSpaced (collapseGo b l) := by
  intro l
  induction l with
  | nil =>
    intro b
    exact ⟨by simp [collapseGo], by simp [collapseGo]⟩
  | cons c cs ih =>
    intro b
    by_cases hc : isJsSpace c = true
    · cases b with
      | true =>
        rw [collapseGo_true_cons, if_pos hc]
        exact ih true
      | false =>
        rw [collapseGo_false_cons, if_pos hc]
        constructor
        · intro x hx _
          rcases List.mem_cons.mp hx with rfl | hx'
          · rfl
          · exact (ih true).1 x hx' (by assumption)
        · rw [List.chain'_cons']
          refine ⟨?_, (ih true).2⟩
          intro y hy
          rintro ⟨_, hsy⟩
          rw [head_collapseGo_true (Option.mem_def.mp hy)] at hsy
          exact absurd hsy (by simp)
    · have hgoal : wellSpaced (c :: collapseGo false cs) := by
        constructor
        · intro x hx hsp
          rcases List.mem_cons.mp hx with rfl | hx'
          · exact absurd hsp hc
          · exact (ih false).1 x hx' hsp
        · rw [List.chain'_cons']
          refine ⟨?_, (ih false).2⟩
          intro y _
          rintro ⟨hcy, _⟩
          exact hc hcy
      cases b with
      | true => rw [collapseGo_true_cons, if_neg hc]; exact hgoal
      | false => rw [collapseGo_false_cons, if_neg hc]; exact hgoal

theorem collapseGo_fixed : ∀ (l : List Char), wellSpaced l →
    collapseGo false l = l ∧
      ((∀ d, l.head? = some d → isJsSpace d = false) → collapseGo true l = l) := by
  intro l
  induction l with
  | nil => intro _; exact ⟨rfl, fun _ => rfl⟩
  | cons c cs ih =>
    intro h
    have hcs : wellSpaced cs :=
      ⟨fun x hx => h.1 x (List.mem_cons_of_mem _ hx), h.2.tail⟩
    obtain ⟨ihf, iht⟩ := ih hcs
    constructor
    · rw [collapseGo_false_cons]
      by_cases hc : isJsSpace c = true
      · rw [if_pos hc]
        have hc' : c = ' ' := h.1 c (List.mem_cons_self _ _) hc
        have hhead : ∀ d, cs.head? = some d → isJsSpace d = false := by
          intro d hd
          have hpair := (List.chain'_cons'.mp h.2).1 d (Option.mem_def.mpr hd)
          cases hsd : isJsSpace d with
          | false => rfl
          | true => exact absurd ⟨hc, hsd⟩ hpair
        rw [iht hhead, hc']
      · rw [if_neg hc, ihf]
    · intro hhead
      have hc : isJsSpace c = false := hhead c rfl
      rw [collapseGo_true_cons, if_neg (by simp [hc]), ihf]

theorem head?_dropWhile_false : ∀ {l : List Char} {d : Char},
    (l.dropWhile isJsSpace).head? = some d → isJsSpace d = false := by
  intro l
  induction l with
  | nil => intro d h; simp at h
  | cons c cs ih =>
    intro d h
    rw [List.dropWhile_cons] at h
    by_cases hc : isJsSpace c = true
    · rw [if_pos hc] at h
      exact ih h
    · rw [if_neg hc] at h
      simp only [List.head?_cons, Option.some.injEq] at h
      subst h
      simpa using hc

theorem dropWhile_eq_self_of_head {l : List Char}
    (h : ∀ d, l.head? = some d → isJsSpace d = false) :
    l.dropWhile isJsSpace = l := by
  cases l with
  | nil => rfl
  | cons c cs => rw [List.dropWhile_cons, if_neg (by simp [h c rfl])]

theorem mem_of_mem_dropWhile : ∀ {l : List Char} {d : Char},
    d ∈ l.dropWhile isJsSpace → d ∈ l := by
  intro l
  induction l with
  | nil => intro d h; simp at h
  | cons c cs ih =>
    intro d h
    rw [List.dropWhile_cons] at h
    by_cases hc : isJsSpace c = true
    · rw [if_pos hc] at h
      exact List.mem_cons_of_mem _ (ih h)
    · rwa [if_neg hc] at h

theorem wellSpaced_dropWhile : ∀ {l : List Char}, wellSpaced l →
    wellSpaced (l.dropWhile isJsSpace) := by
  intro l
  induction l with
  | nil => intro h; exact h
  | cons c cs ih =>
    intro h
    rw [List.dropWhile_cons]
    by_cases hc : isJsSpace c = true
    · rw [if_pos hc]
      exact ih ⟨fun x hx => h.1 x (List.mem_cons_of_mem _ hx), h.2.tail⟩
    · rwa [if_neg hc]

theorem wellSpaced_reverse {l : List Char} (h : wellSpaced l) : wellSpaced l.reverse := by
  refine ⟨fun x hx => h.1 x (List.mem_reverse.mp hx), ?_⟩
  rw [List.chain'_reverse]
  exact h.2.imp (fun a b hab hba => hab ⟨hba.2, hba.1⟩)

theorem wellSpaced_trimR {l : List Char} (h : wellSpaced l) : wellSpaced (trimR l) :=
  wellSpaced_reverse (wellSpaced_dropWhile (wellSpaced_reverse h))

theorem wellSpaced_jsTrim {l : List Char} (h : wellSpaced l) : wellSpaced (jsTrim l) :=
  wellSpaced_trimR (wellSpaced_dropWhile h)

theorem dropWhile_isSuffix : ∀ (m : List Char), m.dropWhile isJsSpace <:+ m := by
  intro m
  induction m with
  | nil => exact List.nil_suffix
  | cons c cs ih =>
    rw [List.dropWhile_cons]
    by_cases hc : isJsSpace c = true
    · rw [if_pos hc]
      exact ih.trans (List.suffix_cons c cs)
    · rw [if_neg hc]

theorem trimR_isPre (l : List Char) : trimR l <+: l := by
  rw [trimR]
  have hpre := List.reverse_prefix.mpr (dropWhile_isSuffix l.reverse)
  rwa [List.reverse_reverse] at hpre

theorem head?_trimR {l : List Char} {d : Char} (h : (trimR l).head? = some d) :
    l.head? = some d := by
  rcases trimR_isPre l with ⟨tl, htl⟩
  rw [← htl]
  cases hres : trimR l with
  | nil => rw [hres] at h; simp at h
  | cons x xs =>
    rw [hres] at h
    simp only [List.head?_cons, Option.some.injEq] at h
    subst h
    rw [List.cons_append]
    rfl

theorem trimR_idem (l : List Char) : trimR (trimR l) = trimR l := by
  rw [trimR, trimR, List.reverse_reverse,
    dropWhile_eq_self_of_head (fun d hd => head?_dropWhile_false hd)]

theorem jsTrim_jsTrim (l : List Char) : jsTrim (jsTrim l) = jsTrim l := by
  rw [jsTrim, jsTrim]
  have h1 : trimL (trimR (trimL l)) = trimR (trimL l) := by
    rw [trimL]
    apply dropWhile_eq_self_of_head
    intro d hd
    have hd' := head?_trimR hd
    rw [trimL] at hd'
    exact head?_dropWhile_false hd'
  rw [h1, trimR_idem]

theorem mem_of_mem_jsTrim {l : List Char} {d : Char} (h : d ∈ jsTrim l) : d ∈ l := by
  rw [jsTrim, trimR] at h
  have h1 := List.mem_reverse.mp h
  have h2 := mem_of_mem_dropWhile h1
  have h3 := List.mem_reverse.mp h2
  rw [trimL] at h3
  exact mem_of_mem_dropWhile h3

/-- C7: normalization is idempotent: applying the fetchWithAxios normalization
chain to already-normalized text is a no-op. -/
theorem claim7_normalize_idempotent (t : List Char) :
    normalizeText (normalizeText t) = normalizeText t := by
  have hrepr : ∀ u : List Char, normalizeText u = jsTrim (collapseSpaces (charPipe u)) :=
    fun _ => rfl
  have hgood : ∀ d ∈ normalizeText t, goodChar d := by
    intro d hd
    rw [hrepr] at hd
    have hd1 : d ∈ collapseSpaces (charPipe t) := mem_of_mem_jsTrim hd
    rw [collapseSpaces] at hd1
    rcases mem_collapseGo _ _ hd1 with rfl | hd2
    · exact goodChar_space
    · exact mem_charPipe_good hd2
  have hws : wellSpaced (normalizeText t) := by
    rw [hrepr]
    exact wellSpaced_jsTrim (wellSpaced_collapseGo _ _)
  rw [hrepr (normalizeText t), charPipe_fixed hgood, collapseSpaces,
    (collapseGo_fixed _ hws).1, hrepr t]
  exact jsTrim_jsTrim _

/-- C9: Scenario A: for body text "Apply Now — financing available" (em dash,
mixed case) the normalized text contains "apply now - financing available",
both "apply now" and "financing" are matched (as high-confidence keywords),
the classification is Proactive and the confidence is at least 0.4. -/
theorem claim9_scenario_a :
    0 < countOcc (kw "apply now - financing available")
        (normalizeText (kw "Apply Now — financing available")) ∧
      (analyzeContent (normalizeText (kw "Apply Now — financing available"))).matchedKeywords =
        [⟨kw "financing", 1, true⟩, ⟨kw "apply now", 1, true⟩] ∧
      (analyzeWebsite (Except.ok "Apply Now — financing available")).map
          AnalysisReport.classification = Except.ok "Proactive" ∧
      (0.4 : ℚ) ≤
        (analyzeContent (normalizeText (kw "Apply Now — financing available"))).confidence := by
  refine ⟨by decide, by decide, rfl, ?_⟩
  have hm : (scanKeywords (normalizeText (kw "Apply Now — financing available"))).1 =
      [⟨kw "financing", 1, true⟩, ⟨kw "apply now", 1, true⟩] := by decide
  have hs : (scanKeywords (normalizeText (kw "Apply Now — financing available"))).2.1
      = 0.8 := by
    rw [score_eq_matched_sum, hm]
    simp only [List.map_cons, List.map_nil, List.sum_cons, List.sum_nil]
    norm_num
  rw [analyzeContent_confidence, hs, show min (0.8 : ℚ) 1 = 0.8 by norm_num,
    toFixed3_of_int _ 800 (by norm_num)]
  norm_num
